import Mathlib

/-!
Verification of the checkpointed, concurrent pagination/fetch pipeline of the
repository, against its natural-language specification.

The main model (`UYAP`) is a shallow embedding of
`src/UYAP Turkish Court Records/scrape.py`:
  * `load_progress` / `save_progress` (lines 35-62) over a `ProgressFile`
    holding the two JSON lists,
  * the page loop of `main` (lines 215-297), embedded as a fold over the page
    list `List.range' 1 TOTAL_PAGES_TO_FETCH`, parameterised by an environment
    `Env` supplying the results of the two network calls
    (`post_aramadetaylist`, `download_document`),
  * the per-page `ThreadPoolExecutor` fan-out (lines 258-290).  The `with`
    block joins every submitted future before the page is marked done, and
    `ids_downloaded` is read when futures are submitted and written only in the
    `as_completed` loop, which starts after all submissions; the embedding
    therefore linearises a page as: all `fetchDoc` dispatches (in submission
    order, filtered against the pre-page `ids_downloaded`), then the result
    processing.  Within a page the processed doc ids are pairwise distinct
    (dict keys), so the completion order chosen by `as_completed` affects only
    the relative order of the appended CSV rows, which no claim depends on.

The run records a trace of observable events (page fetches, document fetches,
CSV appends, page completions, progress saves) so that temporal claims can be
stated about it.

Further models:
  * `Zauba`: `src/ZaubaCorp/scrape.py` — the retrying `scrape_page`
    (lines 50-93), `process_page_range` (lines 107-112), and the batch-advance
    logic of `run` (line 146).
  * `Pool`: operational model of a `ThreadPoolExecutor(max_workers=K)`:
    `K` workers, each running at most one task at a time, taking tasks from a
    pending queue.
  * `Fs`: the file-system operations performed by `save_progress`
    (lines 52-62): `open(filepath, "w")` truncates the progress file in place,
    then `json.dump` writes the serialized state — there is no temporary file
    and no rename.
-/

namespace UYAP

/-- A record of `data["data"]["data"]` as consumed by `main` (lines 252-283).
The script reads each field with `r.get(key, "")`, so an absent field and an
empty field are indistinguishable; fields are modelled as `String` with `""`
for "missing".  The `id` field stands for `str(r.get("id", ""))`. -/
structure Record where
  id : String
  daire : String
  esasNo : String
  kararNo : String
  kararTarihi : String
  arananKelime : String
  durum : String
  index : String
deriving DecidableEq, Repr

/-- In-memory progress (`progress` dict of `main`): two Python sets. -/
structure ProgressState where
  pages_done : Finset Nat
  ids_downloaded : Finset String
deriving DecidableEq

/-- The on-disk JSON document written by `save_progress`: the two sets
serialized as JSON lists (in some enumeration order).  `json.dump`/`json.load`
round-trip lists of numbers and strings exactly, so the file is modelled by
its two lists. -/
structure ProgressFile where
  pages_done : List Nat
  ids_downloaded : List String
deriving DecidableEq, Repr

/-- The `data` dict built in `save_progress` (lines 57-60): each set converted
to a list by `list(...)`.  Python's set enumeration order is arbitrary; the
model picks the sorted enumeration as one concrete order. -/
def save_progress (ps : ProgressState) : ProgressFile :=
  ⟨ps.pages_done.sort (· ≤ ·), ps.ids_downloaded.sort (· ≤ ·)⟩

/-- The set reconstruction in `load_progress` (lines 47-49):
`set(data.get(key, []))` for both keys. -/
def load_progress (pf : ProgressFile) : ProgressState :=
  ⟨pf.pages_done.toFinset, pf.ids_downloaded.toFinset⟩

/-- One CSV row as assembled in lines 274-284. -/
structure CsvRow where
  id : String
  daire : String
  esasNo : String
  kararNo : String
  kararTarihi : String
  arananKelime : String
  durum : String
  index : String
  doc_text : String
deriving DecidableEq, Repr

/-- Row assembly, lines 274-284: id and metadata from `metadata_by_id[doc_id]`,
plus the downloaded text. -/
def mkRow (doc_id : String) (r : Record) (doc_text : String) : CsvRow :=
  ⟨doc_id, r.daire, r.esasNo, r.kararNo, r.kararTarihi, r.arananKelime,
    r.durum, r.index, doc_text⟩

/-- Observable events of a run.  Each event carries the page number during
whose processing it occurs (for `fetchPage`/`markPageDone` that is the page
itself); this tag is bookkeeping for stating temporal properties. -/
inductive Event where
  | fetchPage (n : Nat)
  | fetchDoc (page : Nat) (doc_id : String)
  | appendRow (page : Nat) (row : CsvRow)
  | markPageDone (n : Nat)
  | saveProgress (page : Nat) (st : ProgressState)
deriving DecidableEq

/-- The two network calls a run makes, as oracles: `post_aramadetaylist`
returns the parsed record list of a page or raises, `download_document`
returns the document text for a doc id or raises.  Within one run an oracle is
a function, i.e. repeating a call returns the same outcome. -/
structure Env where
  post_aramadetaylist : Nat → Except String (List Record)
  download_document : String → Except String String

/-- One step of building `metadata_by_id` (line 256): Python dict assignment —
an existing key keeps its position and gets the new value, a new key is
appended. -/
def insertMeta (m : List (String × Record)) (k : String) (r : Record) :
    List (String × Record) :=
  if m.any (fun p => decide (p.1 = k)) then
    m.map (fun p => if p.1 = k then (k, r) else p)
  else m ++ [(k, r)]

/-- The `metadata_by_id` dict (lines 252-256): for each record, take
`str(r.get("id", ""))`; a record whose id is empty is silently dropped
(`if doc_id:`). -/
def metadata_by_id (records : List Record) : List (String × Record) :=
  records.foldl (fun m r => if r.id = "" then m else insertMeta m r.id r) []

/-- The `as_completed` result loop (lines 266-290), linearised in submission
order: for each dispatched (doc_id, record), a failed download is logged and
skipped (`continue`, line 272), a successful one appends the CSV row
(line 287) and then adds the id to `ids_downloaded` (line 290). -/
def dispatchResults (env : Env) (page : Nat) :
    List (String × Record) → Finset String → Finset String × List Event
  | [], ids => (ids, [])
  | (k, r) :: rest, ids =>
    match env.download_document k with
    | .error _ => dispatchResults env page rest ids
    | .ok txt =>
      let out := dispatchResults env page rest (insert k ids)
      (out.1, .appendRow page (mkRow k r txt) :: out.2)

/-- One iteration of the page loop of `main` (lines 225-295):
  * a page already in `pages_done` is skipped without any fetch (226-228);
  * a failed page fetch is logged and the loop continues (231-235) — the page
    is not marked done and progress is not saved;
  * a page with zero records is marked done and progress saved (242-247);
  * otherwise the per-page dispatcher runs: ids not in `ids_downloaded` are
    submitted to the pool (258-263), results are collected (266-290), then the
    page is marked done and progress saved (293-294). -/
def processPage (env : Env) (prog : ProgressState) (n : Nat) :
    ProgressState × List Event :=
  if n ∈ prog.pages_done then (prog, [])
  else
    match env.post_aramadetaylist n with
    | .error _ => (prog, [.fetchPage n])
    | .ok records =>
      if records.isEmpty then
        (⟨insert n prog.pages_done, prog.ids_downloaded⟩,
         [.fetchPage n, .markPageDone n,
          .saveProgress n ⟨insert n prog.pages_done, prog.ids_downloaded⟩])
      else
        let toFetch := (metadata_by_id records).filter
          (fun p => decide (p.1 ∉ prog.ids_downloaded))
        let out := dispatchResults env n toFetch prog.ids_downloaded
        (⟨insert n prog.pages_done, out.1⟩,
         .fetchPage n :: toFetch.map (fun p => Event.fetchDoc n p.1)
           ++ out.2
           ++ [.markPageDone n, .saveProgress n ⟨insert n prog.pages_done, out.1⟩])

/-- The page loop folded over an explicit page list, returning the final
progress state and the concatenated event trace. -/
def runPages (env : Env) : ProgressState → List Nat → ProgressState × List Event
  | prog, [] => (prog, [])
  | prog, n :: rest =>
    let st := processPage env prog n
    let out := runPages env st.1 rest
    (out.1, st.2 ++ out.2)

/-- `main` (lines 215-297): load the progress state (`init`), then iterate
pages `1 .. totalPages` (`range(1, TOTAL_PAGES_TO_FETCH + 1)`). -/
def runMain (env : Env) (totalPages : Nat) (init : ProgressState) :
    ProgressState × List Event :=
  runPages env init (List.range' 1 totalPages)

/-- Recognise a page-fetch event for page `n`. -/
def isFetchPageFor (n : Nat) : Event → Bool
  | .fetchPage m => decide (m = n)
  | _ => false

/-- Recognise a document-fetch event for `doc_id` (any page). -/
def isFetchDocFor (doc_id : String) : Event → Bool
  | .fetchDoc _ i => decide (i = doc_id)
  | _ => false

/-- Recognise a page-completion event. -/
def isMark : Event → Bool
  | .markPageDone _ => true
  | _ => false

/-- Recognise a progress-save event. -/
def isSave : Event → Bool
  | .saveProgress _ _ => true
  | _ => false

/-- The page during whose processing an event occurs. -/
def tagOf : Event → Nat
  | .fetchPage n => n
  | .fetchDoc p _ => p
  | .appendRow p _ => p
  | .markPageDone n => n
  | .saveProgress p _ => p

/-- Pages marked done in a trace. -/
def marksOf : List Event → Finset Nat
  | [] => ∅
  | .markPageDone n :: rest => insert n (marksOf rest)
  | _ :: rest => marksOf rest

/-- Holds when no document fetch is dispatched for a page that is already
marked done at that point of the trace (`marked` is the set of pages marked
before the trace starts): "never mark a page done while its unit fetches are
still in flight", read along the linearised trace. -/
def noFetchAfterMark : List Event → Finset Nat → Prop
  | [], _ => True
  | .markPageDone n :: rest, marked => noFetchAfterMark rest (insert n marked)
  | .fetchDoc p _ :: rest, marked => p ∉ marked ∧ noFetchAfterMark rest marked
  | _ :: rest, marked => noFetchAfterMark rest marked

/-- Holds when every `markPageDone n` event is immediately followed by a
`saveProgress` of that page: progress is persisted exactly at page
completions. -/
def saveFollowsMark : List Event → Prop
  | [] => True
  | .markPageDone n :: rest =>
    (∃ st rest2, rest = .saveProgress n st :: rest2) ∧ saveFollowsMark rest
  | _ :: rest => saveFollowsMark rest

end UYAP

namespace Zauba

/-- Outcome of one attempt of `CompanyScraper.scrape_page`
(`src/ZaubaCorp/scrape.py`, lines 50-93):
  * `httpError`: the Zyte POST returned a non-200 status (line 65);
  * `exc`: an exception was raised while fetching/parsing (line 88);
  * `noTable`: a 200 response whose HTML has no `table#table` (line 76);
  * `ok cs`: the parsed `(CIN, company name)` rows. -/
inductive FetchOutcome where
  | httpError
  | exc
  | noTable
  | ok (companies : List (String × String))
deriving DecidableEq

/-- The retry loop body of `scrape_page` (`for attempt in range(3)`), with the
attempt counter explicit and the remaining attempts as structural fuel.
`fetch attempt` is the outcome of the attempt.  Returns the result
(`None` on `noTable` or after the attempt cap) together with the list of
back-off sleeps performed (`time.sleep(2 ** attempt)`): a non-200 status
always sleeps (lines 67-68), an exception sleeps only when `attempt < 2`
(lines 90-91). -/
def scrape_page_go (fetch : Nat → FetchOutcome) :
    Nat → Nat → Option (List (String × String)) × List Nat
  | _, 0 => (none, [])
  | attempt, fuel + 1 =>
    match fetch attempt with
    | .ok cs => (some cs, [])
    | .noTable => (none, [])
    | .httpError =>
      let out := scrape_page_go fetch (attempt + 1) fuel
      (out.1, 2 ^ attempt :: out.2)
    | .exc =>
      let out := scrape_page_go fetch (attempt + 1) fuel
      (out.1, if attempt < 2 then 2 ^ attempt :: out.2 else out.2)

/-- `scrape_page`: at most 3 attempts, starting at attempt 0. -/
def scrape_page (fetch : Nat → FetchOutcome) :
    Option (List (String × String)) × List Nat :=
  scrape_page_go fetch 0 3

/-- `process_page_range` (lines 107-112): every page of the range is scraped
exactly once, in order, regardless of earlier failures; successful pages are
put on the results queue.  `fetchAt p` is the attempt oracle for page `p`. -/
def process_page_range (fetchAt : Nat → Nat → FetchOutcome) (pages : List Nat) :
    List (Nat × Option (List (String × String))) :=
  pages.map (fun p => (p, (scrape_page (fetchAt p)).1))

/-- The pages attempted by one iteration of `run`'s `while` loop: the batch
`[current_page, current_page + batch_size - 1]` (lines 118-131). -/
def batchPages (current batchSize : Nat) : List Nat :=
  List.range' current batchSize

/-- Line 146 of `run`:
`self.current_page = max(completed_pages) + 1 if completed_pages else self.current_page + batch_size`. -/
def next_current_page (current batchSize : Nat) (completed : List Nat) : Nat :=
  match completed.max? with
  | some m => m + 1
  | none => current + batchSize

/-- The pages of batch `k` (starting at `current`) that get processed
successfully, i.e. end up in `completed_pages` (lines 134-141):
`succeeds k p` says whether scraping page `p` during batch `k` yields
companies. -/
def completedIn (succeeds : Nat → Nat → Bool) (k current batchSize : Nat) :
    List Nat :=
  (batchPages current batchSize).filter (succeeds k)

/-- The value of `current_page` at the start of batch `k`, for a fresh run
(`load_progress` returns 1 when no progress file exists, lines 32-37),
iterating line 146 once per batch. -/
def batchStart (succeeds : Nat → Nat → Bool) (batchSize : Nat) : Nat → Nat
  | 0 => 1
  | k + 1 =>
    next_current_page (batchStart succeeds batchSize k) batchSize
      (completedIn succeeds k (batchStart succeeds batchSize k) batchSize)

/-- Page 1 is never part of any batch after the first: once `current_page` has
moved past it, the resume logic never looks at it again. -/
def neverRevisitsPageOne (succeeds : Nat → Nat → Bool) (batchSize : Nat) : Prop :=
  ∀ k, 1 ≤ k → 1 ∉ batchPages (batchStart succeeds batchSize k) batchSize

/-- Page 2 always succeeds; page 1 fails in batch 0 but would succeed on any
later attempt; all other pages always fail. -/
def succeedsLate : Nat → Nat → Bool :=
  fun k p => decide (p = 2) || (decide (p = 1) && decide (1 ≤ k))

/-- An attempt oracle whose every attempt is a non-200 response. -/
def alwaysHttpError : Nat → FetchOutcome := fun _ => .httpError

end Zauba

namespace Pool

/-- State of a `ThreadPoolExecutor(max_workers=K)` servicing submitted
download tasks: the queue of submitted-but-not-started tasks, what each of the
`K` worker threads is currently running, and the finished tasks. -/
structure PoolState (K : Nat) where
  pending : List Nat
  running : Fin K → Option Nat
  finished : List Nat

/-- Executor transitions: an idle worker picks up the next pending task, or a
worker finishes its current task.  A worker runs at most one task at a time —
that is what `max_workers=K` provides. -/
inductive Step (K : Nat) : PoolState K → PoolState K → Prop
  | start (s : PoolState K) (w : Fin K) (t : Nat) (rest : List Nat) :
      s.running w = none → s.pending = t :: rest →
      Step K s ⟨rest, Function.update s.running w (some t), s.finished⟩
  | finish (s : PoolState K) (w : Fin K) (t : Nat) :
      s.running w = some t →
      Step K s ⟨s.pending, Function.update s.running w none, t :: s.finished⟩

/-- The executor right after all tasks of a page have been submitted
(lines 259-263 of the UYAP script). -/
def initState (K : Nat) (tasks : List Nat) : PoolState K :=
  ⟨tasks, fun _ => none, []⟩

/-- The workers with a fetch currently in flight. -/
def busyWorkers {K : Nat} (s : PoolState K) : Finset (Fin K) :=
  Finset.univ.filter (fun w => (s.running w).isSome)

/-- Ten work units, as in the spec's `K=3`, 10 WorkUnits scenario. -/
def tasks10 : List Nat := [0, 1, 2, 3, 4, 5, 6, 7, 8, 9]

end Pool

namespace Fs

/-- Content of the progress file path, abstracted to the three states a crash
can observe: no file yet, a completely written JSON document, or a file that
was opened for writing but whose content is not a complete document (empty or
a strict prefix of the JSON text). -/
inductive Disk where
  | absent
  | complete (pf : UYAP.ProgressFile)
  | truncated
deriving DecidableEq, Repr

/-- File-system operations on the progress file path. -/
inductive FsOp where
  | openTrunc
  | writeAll (pf : UYAP.ProgressFile)
deriving DecidableEq, Repr

/-- Effect of one operation on the file content. -/
def applyOp : Disk → FsOp → Disk
  | _, .openTrunc => .truncated
  | _, .writeAll pf => .complete pf

/-- The operations `save_progress` performs on the progress file
(UYAP script, lines 61-62): `open(filepath, "w")` truncates the file in
place, then `json.dump` writes the document.  There is no temporary file and
no rename. -/
def save_progress_ops (pf : UYAP.ProgressFile) : List FsOp :=
  [.openTrunc, .writeAll pf]

/-- The file contents observable if the process crashes after any prefix of
the operations (including before the first and after the last). -/
def crashStates (d : Disk) (ops : List FsOp) : List Disk :=
  ops.scanl applyOp d

end Fs

namespace UYAP

/-- A record whose only populated field is the id `"x"`. -/
def recX : Record := ⟨"x", "", "", "", "", "", "", ""⟩

/-- A fully populated record with id `"a"`. -/
def recA : Record := ⟨"a", "d1", "e1", "k1", "t1", "w1", "u1", "i1"⟩

/-- A record with populated metadata but a missing/empty `id` field. -/
def recNoId : Record := ⟨"", "d2", "e2", "k2", "t2", "w2", "u2", "i2"⟩

/-- A fresh run: no progress file on disk. -/
def emptyProgress : ProgressState := ⟨∅, ∅⟩

/-- Pages 1 and 2 both list the same document `"x"`; downloading it always
fails. -/
def envC1 : Env :=
  ⟨fun n => if n = 1 then .ok [recX] else if n = 2 then .ok [recX] else .ok [],
   fun _ => .error ("boom")⟩

/-- Page 1 lists document `"a"`; every download succeeds. -/
def envOk : Env :=
  ⟨fun n => if n = 1 then .ok [recA] else .ok [],
   fun _ => .ok ("T")⟩

/-- Page 1 returns zero records, page 2 is nonempty. -/
def envEmptyPage : Env :=
  ⟨fun n => if n = 1 then .ok [] else if n = 2 then .ok [recA] else .ok [],
   fun _ => .ok ("T")⟩

/-- Fetching page 1 always raises; all other pages return zero records. -/
def envFail1 : Env :=
  ⟨fun n => if n = 1 then .error ("timeout") else .ok [],
   fun _ => .ok ("T")⟩

/-- Page 1 contains a record without id next to a normal record. -/
def envC10 : Env :=
  ⟨fun n => if n = 1 then .ok [recNoId, recA] else .ok [],
   fun _ => .ok ("T")⟩

/-- The spec's round-trip example: `completed_pages={1,2,5}`,
`completed_units={"a","b"}`. -/
def psExample : ProgressState := ⟨{1, 2, 5}, {"a", "b"}⟩

/-- A previously committed progress file. -/
def pfOld : ProgressFile := ⟨[1], ["a"]⟩

/-- The progress file of the next commit. -/
def pfNew : ProgressFile := ⟨[1, 2], ["a", "b"]⟩

end UYAP

namespace UYAP

/-- The result loop never removes ids: `ids_downloaded` only grows. -/
theorem dispatchResults_ids_subset (env : Env) (page : Nat)
    (l : List (String × Record)) (ids : Finset String) :
    ids ⊆ (dispatchResults env page l ids).1 := by
  induction l generalizing ids with
  | nil => simp [dispatchResults]
  | cons p rest ih =>
    obtain ⟨k, r⟩ := p
    simp only [dispatchResults]
    cases h : env.download_document k with
    | error e => exact ih ids
    | ok txt =>
      exact fun x hx => ih (insert k ids) (Finset.mem_insert_of_mem hx)

/-- A dispatched id whose download succeeds ends up in `ids_downloaded`. -/
theorem dispatchResults_mem_of_ok (env : Env) (page : Nat)
    (l : List (String × Record)) (ids : Finset String) (k : String) (r : Record)
    (t : String) (hmem : (k, r) ∈ l) (hok : env.download_document k = .ok t) :
    k ∈ (dispatchResults env page l ids).1 := by
  induction l generalizing ids with
  | nil => cases hmem
  | cons p rest ih =>
    obtain ⟨k2, r2⟩ := p
    simp only [dispatchResults]
    cases hmem with
    | head =>
      rw [hok]
      exact dispatchResults_ids_subset env page rest (insert k ids)
        (Finset.mem_insert_self k ids)
    | tail _ htail =>
      cases h : env.download_document k2 with
      | error e => exact ih ids htail
      | ok txt => exact ih (insert k2 ids) htail

/-- Every id in the output set was already there or is a key of the list. -/
theorem dispatchResults_mem_ids (env : Env) (page : Nat)
    (l : List (String × Record)) (ids : Finset String) (x : String)
    (hx : x ∈ (dispatchResults env page l ids).1) :
    x ∈ ids ∨ ∃ r, (x, r) ∈ l := by
  induction l generalizing ids with
  | nil => exact Or.inl (by simpa [dispatchResults] using hx)
  | cons p rest ih =>
    obtain ⟨k, r⟩ := p
    simp only [dispatchResults] at hx
    cases h : env.download_document k with
    | error e =>
      rw [h] at hx
      rcases ih ids hx with h1 | ⟨r2, h2⟩
      · exact Or.inl h1
      · exact Or.inr ⟨r2, List.mem_cons_of_mem _ h2⟩
    | ok txt =>
      rw [h] at hx
      rcases ih (insert k ids) hx with h1 | ⟨r2, h2⟩
      · rcases Finset.mem_insert.mp h1 with h3 | h3
        · exact Or.inr ⟨r, by simp [h3]⟩
        · exact Or.inl h3
      · exact Or.inr ⟨r2, List.mem_cons_of_mem _ h2⟩

/-- Every event emitted by the result loop is a CSV append, of a row whose id
is a key of the dispatched list and whose download succeeded. -/
theorem dispatchResults_events (env : Env) (page : Nat)
    (l : List (String × Record)) (ids : Finset String) (e : Event)
    (he : e ∈ (dispatchResults env page l ids).2) :
    ∃ k r txt, e = .appendRow page (mkRow k r txt) ∧ (k, r) ∈ l ∧
      env.download_document k = .ok txt := by
  induction l generalizing ids with
  | nil => simp [dispatchResults] at he
  | cons p rest ih =>
    obtain ⟨k, r⟩ := p
    simp only [dispatchResults] at he
    cases h : env.download_document k with
    | error err =>
      rw [h] at he
      rcases ih ids he with ⟨k2, r2, t2, h1, h2, h3⟩
      exact ⟨k2, r2, t2, h1, List.mem_cons_of_mem _ h2, h3⟩
    | ok txt =>
      rw [h] at he
      rcases List.mem_cons.mp he with h1 | h1
      · exact ⟨k, r, txt, h1, List.mem_cons_self _ _, h⟩
      · rcases ih (insert k ids) h1 with ⟨k2, r2, t2, h2, h3, h4⟩
        exact ⟨k2, r2, t2, h2, List.mem_cons_of_mem _ h3, h4⟩

end UYAP

namespace UYAP

/-- Dict assignment on an existing key keeps the key list; on a new key it
appends the key. -/
theorem insertMeta_keys (m : List (String × Record)) (k : String) (r : Record) :
    (insertMeta m k r).map Prod.fst =
      if m.any (fun p => decide (p.1 = k)) then m.map Prod.fst
      else m.map Prod.fst ++ [k] := by
  by_cases h : m.any (fun p => decide (p.1 = k)) = true
  · simp only [insertMeta, h, if_true, List.map_map]
    apply List.map_congr_left
    intro p _
    by_cases hp : p.1 = k
    · simp [hp]
    · simp [hp]
  · simp only [insertMeta, h, if_false, List.map_append, List.map_cons,
      List.map_nil, Bool.not_eq_true] at *
    simp [h]

/-- The keys of the `metadata_by_id` dict are pairwise distinct. -/
theorem metadata_keys_nodup_aux (records : List Record)
    (m : List (String × Record)) (hm : (m.map Prod.fst).Nodup) :
    ((records.foldl
        (fun m r => if r.id = "" then m else insertMeta m r.id r) m).map
      Prod.fst).Nodup := by
  induction records generalizing m with
  | nil => simpa [List.foldl] using hm
  | cons rec rest ih =>
    simp only [List.foldl]
    by_cases hid : rec.id = ""
    · simp only [hid, if_true]
      exact ih m hm
    · simp only [hid, if_false]
      apply ih
      rw [insertMeta_keys]
      by_cases hany : m.any (fun p => decide (p.1 = rec.id)) = true
      · simpa [hany] using hm
      · rw [if_neg hany]
        simp only [Bool.not_eq_true, List.any_eq_false] at hany
        rw [List.nodup_append]
        refine ⟨hm, List.nodup_singleton _, ?_⟩
        intro x hx hx1
        rcases List.mem_map.mp hx with ⟨p, hp, hfst⟩
        rcases List.mem_singleton.mp hx1 with rfl
        have := hany p hp
        simp only [decide_eq_false_iff_not] at this
        exact this hfst

theorem metadata_keys_nodup (records : List Record) :
    ((metadata_by_id records).map Prod.fst).Nodup :=
  metadata_keys_nodup_aux records [] (by simp)

/-- Every key of `metadata_by_id` is a nonempty id: records with a
missing/empty id are dropped. -/
theorem metadata_key_ne_empty_aux (records : List Record)
    (m : List (String × Record)) (hm : ∀ p ∈ m, p.1 ≠ "")
    (k : String) (r : Record)
    (hmem : (k, r) ∈ records.foldl
        (fun m r => if r.id = "" then m else insertMeta m r.id r) m) :
    k ≠ "" := by
  induction records generalizing m with
  | nil => exact hm _ (by simpa [List.foldl] using hmem)
  | cons rec rest ih =>
    simp only [List.foldl] at hmem
    by_cases hid : rec.id = ""
    · rw [if_pos hid] at hmem
      exact ih m hm hmem
    · rw [if_neg hid] at hmem
      refine ih _ ?_ hmem
      intro p hp
      unfold insertMeta at hp
      by_cases hany : m.any (fun q => decide (q.1 = rec.id)) = true
      · rw [if_pos hany] at hp
        rcases List.mem_map.mp hp with ⟨q, hq, rfl⟩
        by_cases hqk : q.1 = rec.id
        · simpa [hqk] using hid
        · simpa [hqk] using hm q hq
      · rw [if_neg hany] at hp
        rcases List.mem_append.mp hp with h1 | h1
        · exact hm p h1
        · rcases List.mem_singleton.mp h1 with rfl
          exact hid

theorem metadata_key_ne_empty (records : List Record) (k : String) (r : Record)
    (hmem : (k, r) ∈ metadata_by_id records) : k ≠ "" :=
  metadata_key_ne_empty_aux records [] (by simp) k r hmem

end UYAP

namespace UYAP

/-- A page already done is skipped: no state change, no events. -/
theorem processPage_skip (env : Env) (prog : ProgressState) (n : Nat)
    (h : n ∈ prog.pages_done) : processPage env prog n = (prog, []) := by
  simp [processPage, h]

/-- `pages_done` only grows. -/
theorem processPage_pages_subset (env : Env) (prog : ProgressState) (n : Nat) :
    prog.pages_done ⊆ (processPage env prog n).1.pages_done := by
  unfold processPage
  split
  · exact fun x hx => hx
  · split
    · exact fun x hx => hx
    · split
      · exact fun x hx => Finset.mem_insert_of_mem hx
      · exact fun x hx => Finset.mem_insert_of_mem hx

/-- A page step adds at most its own page number to `pages_done`. -/
theorem processPage_pages_sub_insert (env : Env) (prog : ProgressState) (n : Nat) :
    (processPage env prog n).1.pages_done ⊆ insert n prog.pages_done := by
  unfold processPage
  split
  · exact fun x hx => Finset.mem_insert_of_mem hx
  · split
    · exact fun x hx => Finset.mem_insert_of_mem hx
    · split
      · exact fun x hx => hx
      · exact fun x hx => hx

/-- `ids_downloaded` only grows. -/
theorem processPage_ids_subset (env : Env) (prog : ProgressState) (n : Nat) :
    prog.ids_downloaded ⊆ (processPage env prog n).1.ids_downloaded := by
  unfold processPage
  split
  · exact fun x hx => hx
  · split
    · exact fun x hx => hx
    · split
      · exact fun x hx => hx
      · exact fun x hx => dispatchResults_ids_subset env _ _ _ hx

/-- A page is in the out-state's `pages_done` only if it already was done or
it is this page and its fetch succeeded. -/
theorem processPage_mem_pages_done (env : Env) (prog : ProgressState) (n m : Nat)
    (h : m ∈ (processPage env prog n).1.pages_done) :
    m ∈ prog.pages_done ∨ (m = n ∧ ∃ rs, env.post_aramadetaylist n = .ok rs) := by
  unfold processPage at h
  split at h
  · exact Or.inl h
  · rename_i hdone
    split at h
    · exact Or.inl h
    · rename_i records heq
      split at h
      · rcases Finset.mem_insert.mp h with h1 | h1
        · exact Or.inr ⟨h1, records, heq⟩
        · exact Or.inl h1
      · rcases Finset.mem_insert.mp h with h1 | h1
        · exact Or.inr ⟨h1, records, heq⟩
        · exact Or.inl h1

end UYAP

namespace UYAP

@[simp] theorem isFetchDocFor_fetchPage (id : String) (n : Nat) :
    isFetchDocFor id (.fetchPage n) = false := rfl

@[simp] theorem isFetchDocFor_fetchDoc (id : String) (p : Nat) (i : String) :
    isFetchDocFor id (.fetchDoc p i) = decide (i = id) := rfl

@[simp] theorem isFetchDocFor_appendRow (id : String) (p : Nat) (row : CsvRow) :
    isFetchDocFor id (.appendRow p row) = false := rfl

@[simp] theorem isFetchDocFor_mark (id : String) (n : Nat) :
    isFetchDocFor id (.markPageDone n) = false := rfl

@[simp] theorem isFetchDocFor_save (id : String) (p : Nat) (st : ProgressState) :
    isFetchDocFor id (.saveProgress p st) = false := rfl

@[simp] theorem isFetchPageFor_fetchPage (n m : Nat) :
    isFetchPageFor n (.fetchPage m) = decide (m = n) := rfl

@[simp] theorem isFetchPageFor_fetchDoc (n p : Nat) (i : String) :
    isFetchPageFor n (.fetchDoc p i) = false := rfl

@[simp] theorem isFetchPageFor_appendRow (n p : Nat) (row : CsvRow) :
    isFetchPageFor n (.appendRow p row) = false := rfl

@[simp] theorem isFetchPageFor_mark (n m : Nat) :
    isFetchPageFor n (.markPageDone m) = false := rfl

@[simp] theorem isFetchPageFor_save (n p : Nat) (st : ProgressState) :
    isFetchPageFor n (.saveProgress p st) = false := rfl

/-- In a list of pairs with pairwise distinct keys, at most one pair has a
given key. -/
theorem countP_key_le_one (l : List (String × Record))
    (h : (l.map Prod.fst).Nodup) (k : String) :
    l.countP (fun p => decide (p.1 = k)) ≤ 1 := by
  induction l with
  | nil => simp
  | cons p rest ih =>
    simp only [List.map_cons, List.nodup_cons] at h
    rw [List.countP_cons]
    by_cases hp : p.1 = k
    · have hz : rest.countP (fun q => decide (q.1 = k)) = 0 := by
        rw [List.countP_eq_zero]
        intro q hq hqk
        simp only [decide_eq_true_eq] at hqk
        exact h.1 (List.mem_map.mpr ⟨q, hq, by rw [hqk, hp]⟩)
      simp [hz, hp]
    · have hd : (decide (p.1 = k)) = false := by simp [hp]
      simp only [hd, Bool.false_eq_true, if_false, Nat.add_zero]
      exact ih h.2

/-- The keys submitted to the executor on one page are pairwise distinct. -/
theorem toFetch_keys_nodup (records : List Record) (prog : ProgressState) :
    (((metadata_by_id records).filter
        (fun p => decide (p.1 ∉ prog.ids_downloaded))).map Prod.fst).Nodup :=
  ((List.filter_sublist _).map Prod.fst).nodup (metadata_keys_nodup records)

/-- The result loop emits no document-fetch events (only CSV appends). -/
theorem dispatchResults_no_fetchDoc (env : Env) (page : Nat)
    (l : List (String × Record)) (ids : Finset String) (id : String) :
    (dispatchResults env page l ids).2.countP (isFetchDocFor id) = 0 := by
  rw [List.countP_eq_zero]
  intro e he
  rcases dispatchResults_events env page l ids e he with ⟨k, r, t, rfl, _, _⟩
  simp

/-- Every event of a page's block is tagged with that page. -/
theorem processPage_tag (env : Env) (prog : ProgressState) (n : Nat) (e : Event)
    (he : e ∈ (processPage env prog n).2) : tagOf e = n := by
  unfold processPage at he
  split at he
  · simp at he
  · split at he
    · rw [List.mem_singleton] at he
      subst he
      rfl
    · split at he
      · simp only [List.mem_cons, List.mem_singleton, List.not_mem_nil] at he
        rcases he with rfl | rfl | rfl | h
        · rfl
        · rfl
        · rfl
        · cases h
      · rcases List.mem_cons.mp he with rfl | he2
        · rfl
        · rcases List.mem_append.mp he2 with he3 | he3
          · rcases List.mem_append.mp he3 with he4 | he4
            · rcases List.mem_map.mp he4 with ⟨p, hp, rfl⟩
              rfl
            · rcases dispatchResults_events env n _ _ e he4 with ⟨k, r, t, rfl, _, _⟩
              rfl
          · rcases List.mem_cons.mp he3 with rfl | he4
            · rfl
            · rcases List.mem_singleton.mp he4 with rfl
              rfl

end UYAP

namespace UYAP

/-- Every page that is not yet done gets its page fetch attempted. -/
theorem processPage_fetchPage_mem (env : Env) (prog : ProgressState) (n : Nat)
    (h : n ∉ prog.pages_done) :
    Event.fetchPage n ∈ (processPage env prog n).2 := by
  unfold processPage
  rw [if_neg h]
  split
  · exact List.mem_singleton_self _
  · split
    · exact List.mem_cons_self _ _
    · exact List.mem_cons_self _ _

/-- A page whose fetch succeeds (with any record list) is marked done. -/
theorem processPage_mark_mem (env : Env) (prog : ProgressState) (n : Nat)
    (rs : List Record) (h : n ∉ prog.pages_done)
    (heq : env.post_aramadetaylist n = .ok rs) :
    Event.markPageDone n ∈ (processPage env prog n).2 := by
  unfold processPage
  rw [if_neg h, heq]
  split
  · rename_i a h1
    cases h1
  · rename_i records h1
    injection h1 with h2
    subst h2
    by_cases hemp : rs.isEmpty = true
    · simp [hemp]
    · simp [hemp]

/-- A mark event occurs in a page block only when the page fetch succeeded. -/
theorem processPage_mark_ok (env : Env) (prog : ProgressState) (n m : Nat)
    (he : Event.markPageDone m ∈ (processPage env prog n).2) :
    m = n ∧ n ∉ prog.pages_done ∧ ∃ rs, env.post_aramadetaylist n = .ok rs := by
  unfold processPage at he
  split at he
  · simp at he
  · rename_i hdone
    split at he
    · simp at he
    · rename_i records heq
      refine ⟨?_, hdone, records, heq⟩
      split at he
      · simp only [List.mem_cons, List.mem_singleton, List.not_mem_nil] at he
        rcases he with h1 | h1 | h1 | h1
        · cases h1
        · exact (Event.markPageDone.injEq _ _).mp h1.symm |>.symm ▸ rfl
        · cases h1
        · cases h1
      · rcases List.mem_cons.mp he with h1 | he2
        · cases h1
        · rcases List.mem_append.mp he2 with he3 | he3
          · rcases List.mem_append.mp he3 with he4 | he4
            · rcases List.mem_map.mp he4 with ⟨p, hp, h1⟩
              cases h1
            · rcases dispatchResults_events env n _ _ _ he4 with ⟨k, r, t, h1, _, _⟩
              cases h1
          · rcases List.mem_cons.mp he3 with h1 | he4
            · exact ((Event.markPageDone.injEq _ _).mp h1)
            · rcases List.mem_singleton.mp he4 with h1
              cases h1

/-- A document fetch is dispatched on page `n` only for a nonempty doc id not
yet in `ids_downloaded`. -/
theorem processPage_fetchDoc (env : Env) (prog : ProgressState) (n p : Nat)
    (id : String) (he : Event.fetchDoc p id ∈ (processPage env prog n).2) :
    p = n ∧ id ∉ prog.ids_downloaded ∧ id ≠ "" := by
  unfold processPage at he
  split at he
  · simp at he
  · split at he
    · simp at he
    · split at he
      · simp only [List.mem_cons, List.mem_singleton, List.not_mem_nil] at he
        rcases he with h1 | h1 | h1 | h1
        · cases h1
        · cases h1
        · cases h1
        · cases h1
      · rcases List.mem_cons.mp he with h1 | he2
        · cases h1
        · rcases List.mem_append.mp he2 with he3 | he3
          · rcases List.mem_append.mp he3 with he4 | he4
            · rcases List.mem_map.mp he4 with ⟨q, hq, h1⟩
              obtain ⟨k, r⟩ := q
              rcases List.mem_filter.mp hq with ⟨hmem, hfil⟩
              simp only [decide_eq_true_eq] at hfil
              cases h1
              exact ⟨rfl, hfil, metadata_key_ne_empty _ _ _ hmem⟩
            · rcases dispatchResults_events env n _ _ _ he4 with ⟨k, r, t, h1, _, _⟩
              cases h1
          · rcases List.mem_cons.mp he3 with h1 | he4
            · cases h1
            · rcases List.mem_singleton.mp he4 with h1
              cases h1

end UYAP

namespace UYAP

/-- A page block dispatches at most one document fetch per doc id (the dict
keys are distinct and each is submitted at most once). -/
theorem processPage_countFD_le_one (env : Env) (prog : ProgressState) (n : Nat)
    (id : String) :
    (processPage env prog n).2.countP (isFetchDocFor id) ≤ 1 := by
  unfold processPage
  split
  · simp
  · split
    · simp
    · split
      · simp
      · simp only [List.countP_cons, List.countP_append,
          dispatchResults_no_fetchDoc, isFetchDocFor_fetchPage,
          isFetchDocFor_mark, isFetchDocFor_save, List.countP_nil,
          Bool.false_eq_true, if_false, Nat.add_zero, Nat.zero_add,
          List.countP_map]
        exact countP_key_le_one _ (toFetch_keys_nodup _ prog) id

/-- No document fetch is dispatched for an id already in `ids_downloaded`. -/
theorem processPage_countFD_zero (env : Env) (prog : ProgressState) (n : Nat)
    (id : String) (hid : id ∈ prog.ids_downloaded) :
    (processPage env prog n).2.countP (isFetchDocFor id) = 0 := by
  rw [List.countP_eq_zero]
  intro e he
  cases e with
  | fetchPage m => simp
  | fetchDoc p i =>
    simp only [isFetchDocFor_fetchDoc, decide_eq_false_iff_not]
    intro h1
    rw [decide_eq_true_eq] at h1
    subst h1
    exact (processPage_fetchDoc env prog n p i he).2.1 hid
  | appendRow p row => simp
  | markPageDone m => simp
  | saveProgress p st => simp

/-- If a page block dispatched a fetch for `id` and downloading `id` succeeds,
then `id` is in `ids_downloaded` after the block. -/
theorem processPage_fetchDoc_ok_mem (env : Env) (prog : ProgressState)
    (n : Nat) (id t : String) (hok : env.download_document id = .ok t)
    (hex : ∃ p, Event.fetchDoc p id ∈ (processPage env prog n).2) :
    id ∈ (processPage env prog n).1.ids_downloaded := by
  obtain ⟨p, he⟩ := hex
  revert he
  unfold processPage
  split
  · intro he
    simp at he
  · split
    · intro he
      simp at he
    · split
      · intro he
        simp at he
      · intro he
        rcases List.mem_cons.mp he with h1 | he2
        · cases h1
        · rcases List.mem_append.mp he2 with he3 | he3
          · rcases List.mem_append.mp he3 with he4 | he4
            · rcases List.mem_map.mp he4 with ⟨q, hq, h1⟩
              obtain ⟨k, r⟩ := q
              cases h1
              exact dispatchResults_mem_of_ok env n _ prog.ids_downloaded
                _ r t hq hok
            · rcases dispatchResults_events env n _ _ _ he4 with
                ⟨k2, r2, t2, h1, _, _⟩
              cases h1
          · rcases List.mem_cons.mp he3 with h1 | he4
            · cases h1
            · rcases List.mem_singleton.mp he4 with h1
              cases h1

end UYAP

namespace UYAP

@[simp] theorem isMark_fetchPage (n : Nat) : isMark (.fetchPage n) = false := rfl

@[simp] theorem isMark_fetchDoc (p : Nat) (i : String) :
    isMark (.fetchDoc p i) = false := rfl

@[simp] theorem isMark_appendRow (p : Nat) (row : CsvRow) :
    isMark (.appendRow p row) = false := rfl

@[simp] theorem isMark_mark (n : Nat) : isMark (.markPageDone n) = true := rfl

@[simp] theorem isMark_save (p : Nat) (st : ProgressState) :
    isMark (.saveProgress p st) = false := rfl

@[simp] theorem isSave_fetchPage (n : Nat) : isSave (.fetchPage n) = false := rfl

@[simp] theorem isSave_fetchDoc (p : Nat) (i : String) :
    isSave (.fetchDoc p i) = false := rfl

@[simp] theorem isSave_appendRow (p : Nat) (row : CsvRow) :
    isSave (.appendRow p row) = false := rfl

@[simp] theorem isSave_mark (n : Nat) : isSave (.markPageDone n) = false := rfl

@[simp] theorem isSave_save (p : Nat) (st : ProgressState) :
    isSave (.saveProgress p st) = true := rfl

/-- `pages_done` only grows along a run. -/
theorem runPages_pages_subset (env : Env) (pages : List Nat) :
    ∀ prog : ProgressState,
      prog.pages_done ⊆ (runPages env prog pages).1.pages_done := by
  induction pages with
  | nil => intro prog; simp [runPages]
  | cons n rest ih =>
    intro prog
    exact (processPage_pages_subset env prog n).trans (ih _)

/-- `ids_downloaded` only grows along a run. -/
theorem runPages_ids_subset (env : Env) (pages : List Nat) :
    ∀ prog : ProgressState,
      prog.ids_downloaded ⊆ (runPages env prog pages).1.ids_downloaded := by
  induction pages with
  | nil => intro prog; simp [runPages]
  | cons n rest ih =>
    intro prog
    exact (processPage_ids_subset env prog n).trans (ih _)

/-- No document fetch is ever dispatched for an id already downloaded. -/
theorem runPages_countFD_zero (env : Env) (pages : List Nat) :
    ∀ (prog : ProgressState) (id : String), id ∈ prog.ids_downloaded →
      (runPages env prog pages).2.countP (isFetchDocFor id) = 0 := by
  induction pages with
  | nil => intro prog id _; simp [runPages]
  | cons n rest ih =>
    intro prog id hid
    simp only [runPages, List.countP_append]
    rw [processPage_countFD_zero env prog n id hid,
      ih _ id (processPage_ids_subset env prog n hid)]

/-- A positive fetch count for an id yields a fetch event for it. -/
theorem countFD_pos_exists (tr : List Event) (id : String)
    (h : 0 < tr.countP (isFetchDocFor id)) :
    ∃ p, Event.fetchDoc p id ∈ tr := by
  rw [List.countP_pos_iff] at h
  obtain ⟨e, he, hpred⟩ := h
  cases e with
  | fetchPage m => simp at hpred
  | fetchDoc p i =>
    rw [isFetchDocFor_fetchDoc, decide_eq_true_eq] at hpred
    subst hpred
    exact ⟨p, he⟩
  | appendRow p row => simp at hpred
  | markPageDone m => simp at hpred
  | saveProgress p st => simp at hpred

/-- An id whose download succeeds is fetched at most once in a run: once it is
fetched, it enters `ids_downloaded` and every later page filters it out. -/
theorem runPages_countFD_le_one (env : Env) (pages : List Nat) :
    ∀ (prog : ProgressState) (id t : String),
      env.download_document id = .ok t →
      (runPages env prog pages).2.countP (isFetchDocFor id) ≤ 1 := by
  induction pages with
  | nil => intro prog id t _; simp [runPages]
  | cons n rest ih =>
    intro prog id t hok
    simp only [runPages, List.countP_append]
    by_cases hc : (processPage env prog n).2.countP (isFetchDocFor id) = 0
    · rw [hc, Nat.zero_add]
      exact ih _ id t hok
    · have hpos := Nat.pos_of_ne_zero hc
      have hex := countFD_pos_exists _ id hpos
      have hmem := processPage_fetchDoc_ok_mem env prog n id t hok hex
      rw [runPages_countFD_zero env rest _ id hmem, Nat.add_zero]
      exact processPage_countFD_le_one env prog n id

/-- Every page of the list that is not yet done gets fetched. -/
theorem runPages_fetchPage_mem (env : Env) (pages : List Nat) :
    ∀ (prog : ProgressState) (n : Nat), n ∈ pages → n ∉ prog.pages_done →
      Event.fetchPage n ∈ (runPages env prog pages).2 := by
  induction pages with
  | nil => intro prog n h; cases h
  | cons m rest ih =>
    intro prog n hmem hnot
    simp only [runPages]
    rcases List.mem_cons.mp hmem with rfl | hmem2
    · exact List.mem_append_left _ (processPage_fetchPage_mem env prog n hnot)
    · by_cases heq : n = m
      · subst heq
        exact List.mem_append_left _ (processPage_fetchPage_mem env prog n hnot)
      · refine List.mem_append_right _ (ih _ n hmem2 ?_)
        intro hcon
        rcases Finset.mem_insert.mp
            (processPage_pages_sub_insert env prog m hcon) with h1 | h1
        · exact heq h1
        · exact hnot h1

/-- A page that is already done is never fetched. -/
theorem runPages_fetchPage_not_mem (env : Env) (pages : List Nat) :
    ∀ (prog : ProgressState) (n : Nat), n ∈ prog.pages_done →
      Event.fetchPage n ∉ (runPages env prog pages).2 := by
  induction pages with
  | nil =>
    intro prog n _ hc
    simp [runPages] at hc
  | cons m rest ih =>
    intro prog n h hc
    simp only [runPages] at hc
    rcases List.mem_append.mp hc with h1 | h1
    · have htag := processPage_tag env prog m _ h1
      simp only [tagOf] at htag
      subst htag
      rw [processPage_skip env prog n h] at h1
      simp at h1
    · exact ih _ n (processPage_pages_subset env prog m h) h1

/-- A page ends up in `pages_done` only if it was already done or it is in the
page list and its fetch succeeded. -/
theorem runPages_mem_pages_done (env : Env) (pages : List Nat) :
    ∀ (prog : ProgressState) (n : Nat),
      n ∈ (runPages env prog pages).1.pages_done →
      n ∈ prog.pages_done ∨
        (n ∈ pages ∧ ∃ rs, env.post_aramadetaylist n = .ok rs) := by
  induction pages with
  | nil =>
    intro prog n h
    exact Or.inl (by simpa [runPages] using h)
  | cons m rest ih =>
    intro prog n h
    simp only [runPages] at h
    rcases ih _ n h with h1 | ⟨h1, h2⟩
    · rcases processPage_mem_pages_done env prog m n h1 with h2 | ⟨rfl, h3⟩
      · exact Or.inl h2
      · exact Or.inr ⟨List.mem_cons_self _ _, h3⟩
    · exact Or.inr ⟨List.mem_cons_of_mem _ h1, h2⟩

/-- Every not-yet-done page of the list whose fetch succeeds is marked done. -/
theorem runPages_mark_mem (env : Env) (pages : List Nat) :
    ∀ (prog : ProgressState) (n : Nat) (rs : List Record),
      n ∈ pages → n ∉ prog.pages_done →
      env.post_aramadetaylist n = .ok rs →
      Event.markPageDone n ∈ (runPages env prog pages).2 := by
  induction pages with
  | nil => intro prog n rs h; cases h
  | cons m rest ih =>
    intro prog n rs hmem hnot heq
    simp only [runPages]
    rcases List.mem_cons.mp hmem with rfl | hmem2
    · exact List.mem_append_left _ (processPage_mark_mem env prog n rs hnot heq)
    · by_cases hnm : n = m
      · subst hnm
        exact List.mem_append_left _ (processPage_mark_mem env prog n rs hnot heq)
      · refine List.mem_append_right _ (ih _ n rs hmem2 ?_ heq)
        intro hcon
        rcases Finset.mem_insert.mp
            (processPage_pages_sub_insert env prog m hcon) with h1 | h1
        · exact hnm h1
        · exact hnot h1

end UYAP

namespace UYAP

theorem mem_marksOf (l : List Event) (m : Nat) :
    m ∈ marksOf l ↔ Event.markPageDone m ∈ l := by
  induction l with
  | nil => simp [marksOf]
  | cons e rest ih =>
    cases e with
    | fetchPage n =>
      rw [show marksOf (Event.fetchPage n :: rest) = marksOf rest from rfl]
      simp [ih]
    | fetchDoc p i =>
      rw [show marksOf (Event.fetchDoc p i :: rest) = marksOf rest from rfl]
      simp [ih]
    | appendRow p row =>
      rw [show marksOf (Event.appendRow p row :: rest) = marksOf rest from rfl]
      simp [ih]
    | markPageDone n =>
      rw [show marksOf (Event.markPageDone n :: rest)
            = insert n (marksOf rest) from rfl]
      simp only [Finset.mem_insert, List.mem_cons, ih, Event.markPageDone.injEq]
    | saveProgress p st =>
      rw [show marksOf (Event.saveProgress p st :: rest) = marksOf rest from rfl]
      simp [ih]

/-- A trace with no mark and no fetch of an already-marked page satisfies
`noFetchAfterMark` for any starting set disjoint from its fetch tags. -/
theorem nfam_no_mark_no_fd (l : List Event) (s : Finset Nat)
    (hm : ∀ n, Event.markPageDone n ∉ l)
    (hf : ∀ p i, Event.fetchDoc p i ∈ l → p ∉ s) :
    noFetchAfterMark l s := by
  induction l with
  | nil => trivial
  | cons e rest ih =>
    have hm2 : ∀ n, Event.markPageDone n ∉ rest :=
      fun n hn => hm n (List.mem_cons_of_mem _ hn)
    have hf2 : ∀ p i, Event.fetchDoc p i ∈ rest → p ∉ s :=
      fun p i hp => hf p i (List.mem_cons_of_mem _ hp)
    cases e with
    | fetchPage n => exact ih hm2 hf2
    | fetchDoc p i =>
      exact ⟨hf p i (List.mem_cons_self _ _), ih hm2 hf2⟩
    | appendRow p row => exact ih hm2 hf2
    | markPageDone n => exact absurd (List.mem_cons_self _ _) (hm n)
    | saveProgress p st => exact ih hm2 hf2

theorem nfam_append (a : List Event) :
    ∀ (b : List Event) (s : Finset Nat),
      noFetchAfterMark (a ++ b) s ↔
        noFetchAfterMark a s ∧ noFetchAfterMark b (s ∪ marksOf a) := by
  induction a with
  | nil =>
    intro b s
    rw [show marksOf ([] : List Event) = ∅ from rfl]
    simp [noFetchAfterMark]
  | cons e rest ih =>
    intro b s
    cases e with
    | fetchPage n =>
      rw [List.cons_append]
      exact (ih b s).trans (by rfl)
    | fetchDoc p i =>
      rw [List.cons_append]
      show (p ∉ s ∧ noFetchAfterMark (rest ++ b) s) ↔
        (p ∉ s ∧ noFetchAfterMark rest s) ∧
          noFetchAfterMark b (s ∪ marksOf (Event.fetchDoc p i :: rest))
      rw [ih b s]
      rw [show marksOf (Event.fetchDoc p i :: rest) = marksOf rest from rfl]
      exact and_assoc.symm
    | appendRow p row =>
      rw [List.cons_append]
      exact (ih b s).trans (by rfl)
    | markPageDone n =>
      rw [List.cons_append]
      show noFetchAfterMark (rest ++ b) (insert n s) ↔
        noFetchAfterMark rest (insert n s) ∧
          noFetchAfterMark b (s ∪ marksOf (Event.markPageDone n :: rest))
      rw [ih b (insert n s)]
      rw [show marksOf (Event.markPageDone n :: rest)
            = insert n (marksOf rest) from rfl]
      rw [Finset.insert_union, Finset.union_insert]
    | saveProgress p st =>
      rw [List.cons_append]
      exact (ih b s).trans (by rfl)

end UYAP

namespace UYAP

/-- A full page block (page fetch, document fetches, row appends, mark, save)
satisfies `noFetchAfterMark` when its page is not already marked. -/
theorem nfam_block (n : Nat) (fds rows : List Event) (s : Finset Nat)
    (stSave : ProgressState)
    (hfd : ∀ e ∈ fds, ∃ i, e = Event.fetchDoc n i)
    (hrow : ∀ e ∈ rows, ∃ p row, e = Event.appendRow p row)
    (hs : n ∉ s) :
    noFetchAfterMark
      (Event.fetchPage n :: (fds ++ rows) ++
        [Event.markPageDone n, Event.saveProgress n stSave]) s := by
  show noFetchAfterMark ((fds ++ rows) ++
    [Event.markPageDone n, Event.saveProgress n stSave]) s
  rw [nfam_append, nfam_append]
  refine ⟨⟨?_, ?_⟩, ?_⟩
  · apply nfam_no_mark_no_fd
    · intro m hm
      rcases hfd _ hm with ⟨i, h1⟩
      cases h1
    · intro p i hp
      rcases hfd _ hp with ⟨i2, h1⟩
      cases h1
      exact hs
  · apply nfam_no_mark_no_fd
    · intro m hm
      rcases hrow _ hm with ⟨p, row, h1⟩
      cases h1
    · intro p i hp
      rcases hrow _ hp with ⟨p2, row, h1⟩
      cases h1
  · trivial

/-- A page block never dispatches a fetch for a page in `s`, provided its own
page is not in `s` (or the block is a skip). -/
theorem nfam_processPage (env : Env) (prog : ProgressState) (n : Nat)
    (s : Finset Nat) (h : n ∈ prog.pages_done ∨ n ∉ s) :
    noFetchAfterMark (processPage env prog n).2 s := by
  by_cases hdone : n ∈ prog.pages_done
  · rw [processPage_skip env prog n hdone]
    trivial
  · have hs : n ∉ s := h.resolve_left hdone
    unfold processPage
    rw [if_neg hdone]
    split
    · trivial
    · split
      · trivial
      · refine nfam_block n _ _ s _ ?_ ?_ hs
        · intro e he
          rcases List.mem_map.mp he with ⟨q, hq, rfl⟩
          exact ⟨q.1, rfl⟩
        · intro e he
          rcases dispatchResults_events env n _ _ e he with ⟨k, r, t, rfl, _, _⟩
          exact ⟨n, mkRow k r t, rfl⟩

/-- If the page fetch succeeds, the page enters `pages_done`. -/
theorem processPage_ok_pages_mem (env : Env) (prog : ProgressState) (n : Nat)
    (rs : List Record) (hdone : n ∉ prog.pages_done)
    (heq : env.post_aramadetaylist n = .ok rs) :
    n ∈ (processPage env prog n).1.pages_done := by
  unfold processPage
  rw [if_neg hdone, heq]
  split
  · rename_i a h1
    cases h1
  · rename_i records h1
    injection h1 with h2
    subst h2
    split
    · exact Finset.mem_insert_self _ _
    · exact Finset.mem_insert_self _ _

/-- Every page marked inside a block is the block's page and is recorded in
the block's out-state. -/
theorem marksOf_processPage (env : Env) (prog : ProgressState) (n m : Nat)
    (h : m ∈ marksOf (processPage env prog n).2) :
    m = n ∧ m ∈ (processPage env prog n).1.pages_done := by
  rw [mem_marksOf] at h
  obtain ⟨rfl, hdone, rs, heq⟩ := processPage_mark_ok env prog n m h
  exact ⟨rfl, processPage_ok_pages_mem env prog m rs hdone heq⟩

end UYAP

namespace UYAP

/-- Along a whole run, a document fetch is never dispatched for a page that
was already marked done earlier in the trace. -/
theorem nfam_runPages (env : Env) (pages : List Nat) :
    ∀ (prog : ProgressState) (s : Finset Nat),
      (∀ m ∈ pages, m ∉ s ∨ m ∈ prog.pages_done) →
      noFetchAfterMark (runPages env prog pages).2 s := by
  induction pages with
  | nil => intro prog s _; trivial
  | cons n rest ih =>
    intro prog s h
    simp only [runPages]
    rw [nfam_append]
    constructor
    · exact nfam_processPage env prog n s
        ((h n (List.mem_cons_self _ _)).symm.imp_right id)
    · apply ih
      intro m hm
      rcases h m (List.mem_cons_of_mem _ hm) with h1 | h1
      · by_cases h2 : m ∈ marksOf (processPage env prog n).2
        · exact Or.inr (marksOf_processPage env prog n m h2).2
        · exact Or.inl (by simp [Finset.mem_union, h1, h2])
      · exact Or.inr (processPage_pages_subset env prog n h1)

theorem sfm_skip (l : List Event) (tl : List Event)
    (hl : ∀ e ∈ l, isMark e = false) :
    saveFollowsMark (l ++ tl) ↔ saveFollowsMark tl := by
  induction l with
  | nil => exact Iff.rfl
  | cons e rest ih =>
    have he := hl e (List.mem_cons_self _ _)
    have ih2 := ih (fun x hx => hl x (List.mem_cons_of_mem _ hx))
    cases e with
    | fetchPage n => exact ih2
    | fetchDoc p i => exact ih2
    | appendRow p row => exact ih2
    | markPageDone n => simp at he
    | saveProgress p st => exact ih2

theorem sfm_block (n : Nat) (fds rows tl : List Event)
    (stSave : ProgressState)
    (hfd : ∀ e ∈ fds, isMark e = false)
    (hrow : ∀ e ∈ rows, isMark e = false)
    (h : saveFollowsMark tl) :
    saveFollowsMark ((Event.fetchPage n :: (fds ++ rows) ++
      [Event.markPageDone n, Event.saveProgress n stSave]) ++ tl) := by
  show saveFollowsMark (((fds ++ rows) ++
    [Event.markPageDone n, Event.saveProgress n stSave]) ++ tl)
  rw [List.append_assoc]
  rw [sfm_skip _ _ (by
    intro e he
    rcases List.mem_append.mp he with h1 | h1
    · exact hfd _ h1
    · exact hrow _ h1)]
  exact ⟨⟨stSave, tl, rfl⟩, h⟩

/-- Appending a page block preserves `saveFollowsMark`. -/
theorem sfm_processPage (env : Env) (prog : ProgressState) (n : Nat)
    (tl : List Event) (h : saveFollowsMark tl) :
    saveFollowsMark ((processPage env prog n).2 ++ tl) := by
  unfold processPage
  split
  · exact h
  · split
    · exact h
    · split
      · exact ⟨⟨_, tl, rfl⟩, h⟩
      · refine sfm_block n _ _ tl _ ?_ ?_ h
        · intro e he
          rcases List.mem_map.mp he with ⟨q, hq, rfl⟩
          rfl
        · intro e he
          rcases dispatchResults_events env n _ _ e he with ⟨k, r, t, rfl, _, _⟩
          rfl

/-- Every progress save in a run trace immediately follows the completion
mark of its page. -/
theorem sfm_runPages (env : Env) (pages : List Nat) :
    ∀ prog : ProgressState, saveFollowsMark (runPages env prog pages).2 := by
  induction pages with
  | nil => intro prog; trivial
  | cons n rest ih =>
    intro prog
    simp only [runPages]
    exact sfm_processPage env prog n _ (ih _)

theorem countP_eq_zero_of (l : List Event) (p : Event → Bool)
    (h : ∀ e ∈ l, p e = false) : l.countP p = 0 :=
  List.countP_eq_zero.mpr (fun e he => by simp [h e he])

/-- Each page block contains equally many save events and mark events. -/
theorem counts_processPage (env : Env) (prog : ProgressState) (n : Nat) :
    (processPage env prog n).2.countP isSave
      = (processPage env prog n).2.countP isMark := by
  unfold processPage
  split
  · rfl
  · split
    · rfl
    · split
      · rfl
      · rename_i records heq hne
        have hfd : ∀ e ∈ (((metadata_by_id records).filter
            (fun p => decide (p.1 ∉ prog.ids_downloaded))).map
              (fun p => Event.fetchDoc n p.1)),
            isSave e = false ∧ isMark e = false := by
          intro e he
          rcases List.mem_map.mp he with ⟨q, hq, rfl⟩
          exact ⟨rfl, rfl⟩
        have hrow : ∀ e ∈ (dispatchResults env n ((metadata_by_id records).filter
            (fun p => decide (p.1 ∉ prog.ids_downloaded)))
              prog.ids_downloaded).2,
            isSave e = false ∧ isMark e = false := by
          intro e he
          rcases dispatchResults_events env n _ _ e he with ⟨k, r, t, rfl, _, _⟩
          exact ⟨rfl, rfl⟩
        simp only [List.countP_cons, List.countP_append, List.countP_nil,
          isSave_fetchPage, isSave_mark, isSave_save, isMark_fetchPage,
          isMark_mark, isMark_save,
          countP_eq_zero_of _ isSave (fun e he => (hfd e he).1),
          countP_eq_zero_of _ isSave (fun e he => (hrow e he).1),
          countP_eq_zero_of _ isMark (fun e he => (hfd e he).2),
          countP_eq_zero_of _ isMark (fun e he => (hrow e he).2)]
        simp

/-- A run performs exactly one progress save per page marked done. -/
theorem counts_runPages (env : Env) (pages : List Nat) :
    ∀ prog : ProgressState,
      (runPages env prog pages).2.countP isSave
        = (runPages env prog pages).2.countP isMark := by
  induction pages with
  | nil => intro prog; rfl
  | cons n rest ih =>
    intro prog
    simp only [runPages, List.countP_append]
    rw [counts_processPage, ih]

end UYAP

namespace UYAP

/-- Every event of a run trace is tagged with a page of the list. -/
theorem runPages_tag (env : Env) (pages : List Nat) :
    ∀ (prog : ProgressState) (e : Event),
      e ∈ (runPages env prog pages).2 → tagOf e ∈ pages := by
  induction pages with
  | nil =>
    intro prog e he
    simp [runPages] at he
  | cons n rest ih =>
    intro prog e he
    simp only [runPages] at he
    rcases List.mem_append.mp he with h1 | h1
    · rw [processPage_tag env prog n e h1]
      exact List.mem_cons_self n rest
    · exact List.mem_cons_of_mem _ (ih _ e h1)

/-- A block contributes no fetch event for a different page number. -/
theorem processPage_countFP_ne (env : Env) (prog : ProgressState) (n m : Nat)
    (h : m ≠ n) :
    (processPage env prog n).2.countP (isFetchPageFor m) = 0 := by
  apply countP_eq_zero_of
  intro e he
  have htag := processPage_tag env prog n e he
  cases e with
  | fetchPage k =>
    simp only [tagOf] at htag
    subst htag
    simp only [isFetchPageFor_fetchPage]
    rw [decide_eq_false_iff_not]
    intro hk
    exact h hk.symm
  | fetchDoc p i => rfl
  | appendRow p row => rfl
  | markPageDone k => rfl
  | saveProgress p st => rfl

/-- A block contains at most one page-fetch event. -/
theorem processPage_countFP_le_one (env : Env) (prog : ProgressState)
    (n m : Nat) :
    (processPage env prog n).2.countP (isFetchPageFor m) ≤ 1 := by
  by_cases h : m = n
  · subst h
    unfold processPage
    split
    · simp
    · split
      · simp [List.countP_cons]
      · split
        · simp [List.countP_cons]
        · rename_i records heq hne
          have hfd : ∀ e ∈ (((metadata_by_id records).filter
              (fun p => decide (p.1 ∉ prog.ids_downloaded))).map
                (fun p => Event.fetchDoc m p.1)),
              isFetchPageFor m e = false := by
            intro e he
            rcases List.mem_map.mp he with ⟨q, hq, rfl⟩
            rfl
          have hrow : ∀ e ∈ (dispatchResults env m
              ((metadata_by_id records).filter
                (fun p => decide (p.1 ∉ prog.ids_downloaded)))
                prog.ids_downloaded).2,
              isFetchPageFor m e = false := by
            intro e he
            rcases dispatchResults_events env m _ _ e he with
              ⟨k, r, t, rfl, _, _⟩
            rfl
          simp only [List.countP_cons, List.countP_append, List.countP_nil,
            isFetchPageFor_fetchPage, isFetchPageFor_mark, isFetchPageFor_save,
            countP_eq_zero_of _ _ hfd, countP_eq_zero_of _ _ hrow]
          simp
  · rw [processPage_countFP_ne env prog n m h]
    simp

/-- Pages outside the page list are never fetched. -/
theorem runPages_countFP_zero (env : Env) (pages : List Nat)
    (prog : ProgressState) (m : Nat) (h : m ∉ pages) :
    (runPages env prog pages).2.countP (isFetchPageFor m) = 0 := by
  apply countP_eq_zero_of
  intro e he
  have htag := runPages_tag env pages prog e he
  cases e with
  | fetchPage k =>
    simp only [tagOf] at htag
    simp only [isFetchPageFor_fetchPage]
    rw [decide_eq_false_iff_not]
    intro hk
    subst hk
    exact h htag
  | fetchDoc p i => rfl
  | appendRow p row => rfl
  | markPageDone k => rfl
  | saveProgress p st => rfl

/-- With pairwise distinct pages, each page is fetched at most once per run —
in particular a failed page fetch is not retried within the run. -/
theorem runPages_countFP_le_one (env : Env) (pages : List Nat) :
    pages.Nodup → ∀ (prog : ProgressState) (m : Nat),
      (runPages env prog pages).2.countP (isFetchPageFor m) ≤ 1 := by
  induction pages with
  | nil => intro _ prog m; simp [runPages]
  | cons n rest ih =>
    intro hnd prog m
    rw [List.nodup_cons] at hnd
    simp only [runPages, List.countP_append]
    by_cases hm : m = n
    · subst hm
      rw [runPages_countFP_zero env rest _ m hnd.1, Nat.add_zero]
      exact processPage_countFP_le_one env prog m m
    · rw [processPage_countFP_ne env prog n m hm, Nat.zero_add]
      exact ih hnd.2 _ m

/-- Every CSV row written by a run has a nonempty id. -/
theorem processPage_appendRow (env : Env) (prog : ProgressState) (n p : Nat)
    (row : CsvRow) (he : Event.appendRow p row ∈ (processPage env prog n).2) :
    row.id ≠ "" := by
  unfold processPage at he
  split at he
  · simp at he
  · split at he
    · simp at he
    · split at he
      · simp at he
      · rcases List.mem_cons.mp he with h1 | he2
        · cases h1
        · rcases List.mem_append.mp he2 with he3 | he3
          · rcases List.mem_append.mp he3 with he4 | he4
            · rcases List.mem_map.mp he4 with ⟨q, hq, h1⟩
              cases h1
            · rcases dispatchResults_events env n _ _ _ he4 with
                ⟨k, r, t, h1, hmem, _⟩
              cases h1
              rcases List.mem_filter.mp hmem with ⟨hmem2, _⟩
              exact metadata_key_ne_empty _ _ _ hmem2
          · rcases List.mem_cons.mp he3 with h1 | he4
            · cases h1
            · rcases List.mem_singleton.mp he4 with h1
              cases h1

theorem runPages_appendRow (env : Env) (pages : List Nat) :
    ∀ (prog : ProgressState) (p : Nat) (row : CsvRow),
      Event.appendRow p row ∈ (runPages env prog pages).2 → row.id ≠ "" := by
  induction pages with
  | nil =>
    intro prog p row he
    simp [runPages] at he
  | cons n rest ih =>
    intro prog p row he
    simp only [runPages] at he
    rcases List.mem_append.mp he with h1 | h1
    · exact processPage_appendRow env prog n p row h1
    · exact ih _ p row h1

/-- The empty id never enters `ids_downloaded`. -/
theorem processPage_ids_new (env : Env) (prog : ProgressState) (n : Nat)
    (x : String) (hx : x ∈ (processPage env prog n).1.ids_downloaded) :
    x ∈ prog.ids_downloaded ∨ x ≠ "" := by
  unfold processPage at hx
  split at hx
  · exact Or.inl hx
  · split at hx
    · exact Or.inl hx
    · split at hx
      · exact Or.inl hx
      · rcases dispatchResults_mem_ids env n _ _ x hx with h1 | ⟨r, h2⟩
        · exact Or.inl h1
        · rcases List.mem_filter.mp h2 with ⟨h3, _⟩
          exact Or.inr (metadata_key_ne_empty _ _ _ h3)

theorem runPages_ids_empty (env : Env) (pages : List Nat) :
    ∀ prog : ProgressState, "" ∉ prog.ids_downloaded →
      "" ∉ (runPages env prog pages).1.ids_downloaded := by
  induction pages with
  | nil =>
    intro prog h hc
    exact h (by simpa [runPages] using hc)
  | cons n rest ih =>
    intro prog h hc
    refine ih _ (fun hc2 => ?_) hc
    exact h ((processPage_ids_new env prog n _ hc2).resolve_right
      (fun hne => hne rfl))

/-- No document fetch is ever dispatched with an empty doc id. -/
theorem runPages_no_empty_fetch (env : Env) (pages : List Nat) :
    ∀ (prog : ProgressState) (p : Nat),
      Event.fetchDoc p "" ∉ (runPages env prog pages).2 := by
  induction pages with
  | nil =>
    intro prog p hc
    simp [runPages] at hc
  | cons n rest ih =>
    intro prog p hc
    simp only [runPages] at hc
    rcases List.mem_append.mp hc with h1 | h1
    · exact (processPage_fetchDoc env prog n p _ h1).2.2 rfl
    · exact ih _ p h1

end UYAP

namespace Zauba

/-- When every attempt gets a non-200 response, `scrape_page` makes exactly
its 3 capped attempts, sleeping 1s, 2s and 4s (exponential backoff), and
returns failure. -/
theorem scrape_page_all_httpError (fetch : Nat → FetchOutcome)
    (h : ∀ a, fetch a = FetchOutcome.httpError) :
    scrape_page fetch = (none, [1, 2, 4]) := by
  simp [scrape_page, scrape_page_go, h]

end Zauba

namespace Zauba

/-- `process_page_range` visits every page of its range exactly once, in
order, regardless of failures. -/
theorem process_page_range_pages (fetchAt : Nat → Nat → FetchOutcome)
    (pages : List Nat) :
    (process_page_range fetchAt pages).map Prod.fst = pages := by
  simp only [process_page_range, List.map_map]
  have : (Prod.fst ∘ fun p : Nat => (p, (scrape_page (fetchAt p)).1))
      = fun p => p := rfl
  rw [this, List.map_id']

/-- The batch advance never moves `current_page` backwards when every
completed page lies in the batch. -/
theorem next_current_page_ge (current batchSize : Nat) (completed : List Nat)
    (h : ∀ x ∈ completed, current ≤ x) :
    current ≤ next_current_page current batchSize completed := by
  unfold next_current_page
  cases hm : completed.max? with
  | none => exact Nat.le_add_right _ _
  | some m =>
    have hmem : m ∈ completed := List.max?_mem (fun a b => max_choice a b) hm
    exact (h m hmem).trans (Nat.le_succ m)

theorem completedIn_ge (succeeds : Nat → Nat → Bool) (k current batchSize : Nat)
    (x : Nat) (hx : x ∈ completedIn succeeds k current batchSize) :
    current ≤ x := by
  have hx2 := (List.mem_filter.mp hx).1
  exact (List.mem_range'_1.mp hx2).1

/-- Under `succeedsLate` with batch size 6, every batch after the first
starts at page 3 or later. -/
theorem batchStart_ge_three (k : Nat) (hk : 1 ≤ k) :
    3 ≤ batchStart succeedsLate 6 k := by
  induction k with
  | zero => cases hk
  | succ k ih =>
    by_cases hk0 : k = 0
    · subst hk0
      decide
    · have h3 := ih (Nat.one_le_iff_ne_zero.mpr hk0)
      show 3 ≤ next_current_page (batchStart succeedsLate 6 k) 6
        (completedIn succeedsLate k (batchStart succeedsLate 6 k) 6)
      exact h3.trans (next_current_page_ge _ _ _
        (fun x hx => completedIn_ge _ _ _ _ x hx))

end Zauba

namespace Pool

/-- At most `K` workers can be busy: the busy workers form a subset of the
`K` worker threads. -/
theorem busyWorkers_card_le (K : Nat) (s : PoolState K) :
    (busyWorkers s).card ≤ K := by
  calc (busyWorkers s).card ≤ (Finset.univ : Finset (Fin K)).card :=
        Finset.card_filter_le _ _
    _ = K := by simp

end Pool

/-- C1: as stated the claim fails on the code: a document id that appears on
two pages and whose download raises on the first page is fetched again on the
second page — pages 1 and 2 of `envC1` both list `"x"`, every download fails,
and the run dispatches `download_document` for `"x"` twice. -/
theorem C1_counterexample :
    (UYAP.runMain UYAP.envC1 2 UYAP.emptyProgress).2.countP
      (UYAP.isFetchDocFor ("x")) = 2 := by
  decide

/-- C1 (amended): ids already in `ids_downloaded` at run start are never
fetched; and an id whose download succeeds is fetched at most once per run.
Only an id whose download fails can be fetched again when it reappears on a
later page. -/
theorem C1_dedup_amended :
    ∀ (env : UYAP.Env) (N : Nat) (init : UYAP.ProgressState) (id : String),
      (id ∈ init.ids_downloaded →
        ∀ p, UYAP.Event.fetchDoc p id ∉ (UYAP.runMain env N init).2) ∧
      (∀ t, env.download_document id = .ok t →
        (UYAP.runMain env N init).2.countP (UYAP.isFetchDocFor id) ≤ 1) := by
  intro env N init id
  constructor
  · intro h p hmem
    have h0 := UYAP.runPages_countFD_zero env (List.range' 1 N) init id h
    have hpos : 0 < (UYAP.runPages env init (List.range' 1 N)).2.countP
        (UYAP.isFetchDocFor id) :=
      List.countP_pos_iff.mpr ⟨_, hmem, by simp⟩
    omega
  · intro t hok
    exact UYAP.runPages_countFD_le_one env (List.range' 1 N) init id t hok

/-- C1 witness: with `"a"` already downloaded, page 1 listing `"a"` and
downloads succeeding, `"a"` is never fetched and its fetch count is at most
one. -/
theorem C1_witness :
    (∀ p, UYAP.Event.fetchDoc p ("a") ∉
      (UYAP.runMain UYAP.envOk 1 ⟨∅, {"a"}⟩).2) ∧
    (UYAP.runMain UYAP.envOk 1 ⟨∅, {"a"}⟩).2.countP
      (UYAP.isFetchDocFor ("a")) ≤ 1 :=
  ⟨(C1_dedup_amended UYAP.envOk 1 ⟨∅, {"a"}⟩ ("a")).1 (by decide),
   (C1_dedup_amended UYAP.envOk 1 ⟨∅, {"a"}⟩ ("a")).2 ("T") rfl⟩

/-- C2: a page present in `pages_done` at the start of a run is skipped
without invoking the page fetcher, whatever the remote content would be (the
environment is universally quantified). -/
theorem C2_skip_completed_pages :
    ∀ (env : UYAP.Env) (N : Nat) (init : UYAP.ProgressState) (n : Nat),
      n ∈ init.pages_done →
      UYAP.Event.fetchPage n ∉ (UYAP.runMain env N init).2 :=
  fun env N init n h => UYAP.runPages_fetchPage_not_mem env _ init n h

/-- C2 witness: page 1, already done, is not fetched in a 2-page run. -/
theorem C2_witness :
    UYAP.Event.fetchPage 1 ∉ (UYAP.runMain UYAP.envOk 2 ⟨{1}, ∅⟩).2 :=
  C2_skip_completed_pages UYAP.envOk 2 ⟨{1}, ∅⟩ 1 (by decide)

/-- C3: in every run trace, a page's completion mark is immediately followed
by the progress save of that page, no document fetch of a page occurs after
that page was marked done, and there are exactly as many progress saves as
page completions (one flush per page, none per unit). -/
theorem C3_page_commit_discipline :
    ∀ (env : UYAP.Env) (N : Nat) (init : UYAP.ProgressState),
      UYAP.saveFollowsMark (UYAP.runMain env N init).2 ∧
      UYAP.noFetchAfterMark (UYAP.runMain env N init).2 ∅ ∧
      (UYAP.runMain env N init).2.countP UYAP.isSave
        = (UYAP.runMain env N init).2.countP UYAP.isMark :=
  fun env N init =>
    ⟨UYAP.sfm_runPages env (List.range' 1 N) init,
     UYAP.nfam_runPages env (List.range' 1 N) init ∅
       (fun m _ => Or.inl (Finset.not_mem_empty m)),
     UYAP.counts_runPages env (List.range' 1 N) init⟩

/-- C4: as stated the claim fails on the code: `save_progress` truncates the
progress file in place and then writes, so the crash state between the two
operations is a truncated file — neither the old committed state nor the new
one. -/
theorem C4_counterexample :
    Fs.Disk.truncated ∈ Fs.crashStates (Fs.Disk.complete UYAP.pfOld)
      (Fs.save_progress_ops UYAP.pfNew) ∧
    decide (Fs.Disk.truncated = Fs.Disk.complete UYAP.pfOld) = false ∧
    decide (Fs.Disk.truncated = Fs.Disk.complete UYAP.pfNew) = false := by
  decide

/-- C4 (amended): `save_progress` opens the progress file itself with mode
`"w"` (truncating it) and then writes the JSON document; there is no
temporary file and no rename, so every commit passes through an intermediate
truncated state observable by a crash. -/
theorem C4_amended :
    ∀ (d : Fs.Disk) (pf : UYAP.ProgressFile),
      Fs.crashStates d (Fs.save_progress_ops pf)
        = [d, Fs.Disk.truncated, Fs.Disk.complete pf] :=
  fun d pf => rfl

/-- C5: as stated the claim fails on the ZaubaCorp scraper: page 1 fails in
batch 0 (while page 2 succeeds), `current_page` advances to
`max(completed)+1 = 3`, and no later batch ever contains page 1 — even though
page 1 would succeed on any retry, it is permanently skipped. -/
theorem C5_counterexample :
    Zauba.succeedsLate 0 1 = false ∧ Zauba.succeedsLate 1 1 = true ∧
    Zauba.batchStart Zauba.succeedsLate 6 1 = 3 ∧
    Zauba.neverRevisitsPageOne Zauba.succeedsLate 6 := by
  refine ⟨by decide, by decide, by decide, ?_⟩
  intro k hk hmem
  have h3 := Zauba.batchStart_ge_three k hk
  have h1 := (List.mem_range'_1.mp hmem).1
  omega

/-- C5 (amended): the UYAP downloader is at-least-once at page granularity:
every page of the range not recorded as done at run start is fetched during
the run, and a page is recorded as done only when it was done before or its
fetch succeeded in this run — so an unprocessed page is retried on every
subsequent run.  The ZaubaCorp scraper does not have this property (see the
counterexample). -/
theorem C5_at_least_once_amended :
    ∀ (env : UYAP.Env) (N : Nat) (init : UYAP.ProgressState) (n : Nat),
      (n ∈ List.range' 1 N → n ∉ init.pages_done →
        UYAP.Event.fetchPage n ∈ (UYAP.runMain env N init).2) ∧
      (n ∈ (UYAP.runMain env N init).1.pages_done →
        n ∈ init.pages_done ∨ ∃ rs, env.post_aramadetaylist n = .ok rs) :=
  fun env N init n =>
    ⟨fun hmem hnot =>
      UYAP.runPages_fetchPage_mem env (List.range' 1 N) init n hmem hnot,
     fun h => (UYAP.runPages_mem_pages_done env (List.range' 1 N) init n h).imp_right
       And.right⟩

/-- C5 witness: in a fresh 1-page run with a successful fetch, page 1 is
fetched, and its presence in the final `pages_done` certifies a successful
fetch. -/
theorem C5_witness :
    UYAP.Event.fetchPage 1 ∈ (UYAP.runMain UYAP.envOk 1 UYAP.emptyProgress).2 ∧
    (1 ∈ UYAP.emptyProgress.pages_done ∨
      ∃ rs, UYAP.envOk.post_aramadetaylist 1 = .ok rs) :=
  ⟨(C5_at_least_once_amended UYAP.envOk 1 UYAP.emptyProgress 1).1
      (by decide) (by decide),
   (C5_at_least_once_amended UYAP.envOk 1 UYAP.emptyProgress 1).2 (by decide)⟩

/-- C6: as stated the claim fails on the code: after page 1 returns zero
records the driver does not stop — it marks the page done and fetches
page 2. -/
theorem C6_counterexample :
    UYAP.envEmptyPage.post_aramadetaylist 1 = .ok [] ∧
    UYAP.Event.fetchPage 2 ∈
      (UYAP.runMain UYAP.envEmptyPage 2 UYAP.emptyProgress).2 :=
  ⟨rfl, by decide⟩

/-- C6 (amended): a page with zero records is marked done ("to avoid
re-checking") and the driver continues: every page of the fixed range
`1..TOTAL_PAGES_TO_FETCH` that is not already done is fetched, regardless of
zero-record pages before it; the loop ends only when the range is
exhausted. -/
theorem C6_zero_records_amended :
    ∀ (env : UYAP.Env) (N : Nat) (init : UYAP.ProgressState) (n : Nat),
      n ∈ List.range' 1 N → n ∉ init.pages_done →
      (env.post_aramadetaylist n = .ok [] →
        UYAP.Event.markPageDone n ∈ (UYAP.runMain env N init).2) ∧
      UYAP.Event.fetchPage n ∈ (UYAP.runMain env N init).2 :=
  fun env N init n hmem hnot =>
    ⟨fun heq =>
      UYAP.runPages_mark_mem env (List.range' 1 N) init n [] hmem hnot heq,
     UYAP.runPages_fetchPage_mem env (List.range' 1 N) init n hmem hnot⟩

/-- C6 witness: the zero-record page 1 of `envEmptyPage` is marked done and
was fetched. -/
theorem C6_witness :
    UYAP.Event.markPageDone 1 ∈
      (UYAP.runMain UYAP.envEmptyPage 2 UYAP.emptyProgress).2 ∧
    UYAP.Event.fetchPage 1 ∈
      (UYAP.runMain UYAP.envEmptyPage 2 UYAP.emptyProgress).2 :=
  ⟨(C6_zero_records_amended UYAP.envEmptyPage 2 UYAP.emptyProgress 1
      (by decide) (by decide)).1 rfl,
   (C6_zero_records_amended UYAP.envEmptyPage 2 UYAP.emptyProgress 1
      (by decide) (by decide)).2⟩

/-- C7: as stated the claim fails on the UYAP driver: a page fetch that
raises (`envFail1` page 1) is attempted exactly once in the run — there is no
within-run retry and no backoff — and the run simply proceeds to page 2. -/
theorem C7_counterexample :
    UYAP.envFail1.post_aramadetaylist 1 = .error ("timeout") ∧
    (UYAP.runMain UYAP.envFail1 2 UYAP.emptyProgress).2.countP
      (UYAP.isFetchPageFor 1) = 1 ∧
    UYAP.Event.fetchPage 2 ∈
      (UYAP.runMain UYAP.envFail1 2 UYAP.emptyProgress).2 :=
  ⟨rfl, by decide, by decide⟩

/-- C7 (amended): retry-with-backoff exists only in the ZaubaCorp scraper:
`scrape_page` retries a page up to the 3-attempt cap with exponential backoff
sleeps 1s, 2s, 4s and then gives the page up, and `process_page_range` still
visits every page of its range; the UYAP driver instead attempts each page at
most once per run (a failed page is left unmarked for the next run). -/
theorem C7_retry_amended :
    (∀ fetch, (∀ a, fetch a = Zauba.FetchOutcome.httpError) →
      Zauba.scrape_page fetch = (none, [1, 2, 4])) ∧
    (∀ (fetchAt : Nat → Nat → Zauba.FetchOutcome) (pages : List Nat),
      (Zauba.process_page_range fetchAt pages).map Prod.fst = pages) ∧
    (∀ (env : UYAP.Env) (N : Nat) (init : UYAP.ProgressState) (m : Nat),
      (UYAP.runMain env N init).2.countP (UYAP.isFetchPageFor m) ≤ 1) :=
  ⟨Zauba.scrape_page_all_httpError,
   Zauba.process_page_range_pages,
   fun env N init m =>
     UYAP.runPages_countFP_le_one env (List.range' 1 N)
       (List.nodup_range' 1 N) init m⟩

/-- C7 witness: the always-non-200 fetcher is retried exactly three times
with sleeps 1, 2, 4 and then given up. -/
theorem C7_witness :
    Zauba.scrape_page Zauba.alwaysHttpError = (none, [1, 2, 4]) :=
  C7_retry_amended.1 Zauba.alwaysHttpError (fun a => rfl)

/-- C8: saving any ProgressState and reloading it yields an equal state, and
the loaded state depends only on the sets of listed elements, not on their
order in the file. -/
theorem C8_roundtrip :
    (∀ ps : UYAP.ProgressState,
      UYAP.load_progress (UYAP.save_progress ps) = ps) ∧
    (∀ pf1 pf2 : UYAP.ProgressFile,
      pf1.pages_done.Perm pf2.pages_done →
      pf1.ids_downloaded.Perm pf2.ids_downloaded →
      UYAP.load_progress pf1 = UYAP.load_progress pf2) := by
  constructor
  · intro ps
    cases ps with
    | mk pages ids =>
      simp [UYAP.load_progress, UYAP.save_progress, Finset.sort_toFinset]
  · intro pf1 pf2 h1 h2
    simp [UYAP.load_progress, List.toFinset_eq_of_perm _ _ h1,
      List.toFinset_eq_of_perm _ _ h2]

/-- C8 witness: the spec's example `completed_pages={1,2,5}`,
`completed_units={"a","b"}` round-trips, and two files listing the same
elements in different orders load to the same state. -/
theorem C8_witness :
    UYAP.load_progress (UYAP.save_progress UYAP.psExample) = UYAP.psExample ∧
    UYAP.load_progress ⟨[1, 2], ["a"]⟩ = UYAP.load_progress ⟨[2, 1], ["a"]⟩ :=
  ⟨C8_roundtrip.1 UYAP.psExample,
   C8_roundtrip.2 ⟨[1, 2], ["a"]⟩ ⟨[2, 1], ["a"]⟩ (by decide) (by decide)⟩

/-- C9: in every state reachable by the executor from a submitted batch of
tasks, at most `K` fetches are in flight (each of the `K` worker threads runs
at most one task at a time); and a page is marked done only after all its
unit fetches — no document fetch of a page ever occurs after that page's
completion mark. -/
theorem C9_bounded_concurrency :
    (∀ (K : Nat) (tasks : List Nat) (s : Pool.PoolState K),
      Relation.ReflTransGen (Pool.Step K) (Pool.initState K tasks) s →
      (Pool.busyWorkers s).card ≤ K) ∧
    (∀ (env : UYAP.Env) (N : Nat) (init : UYAP.ProgressState),
      UYAP.noFetchAfterMark (UYAP.runMain env N init).2 ∅) :=
  ⟨fun K tasks s _ => Pool.busyWorkers_card_le K s,
   fun env N init =>
     UYAP.nfam_runPages env (List.range' 1 N) init ∅
       (fun m _ => Or.inl (Finset.not_mem_empty m))⟩

/-- C9 witness: with `K = 3` and the 10 submitted work units, the initial
reachable state has at most 3 fetches in flight. -/
theorem C9_witness :
    (Pool.busyWorkers (Pool.initState 3 Pool.tasks10)).card ≤ 3 :=
  C9_bounded_concurrency.1 3 Pool.tasks10 (Pool.initState 3 Pool.tasks10)
    Relation.ReflTransGen.refl

/-- C10: a record whose `id` field is missing or empty is silently dropped:
no document fetch is dispatched with an empty id, no CSV row with an empty id
is appended, the empty id never enters the progress state, while a page whose
fetch succeeded (with any records, empty-id ones included) is still marked
done. -/
theorem C10_empty_id_dropped :
    ∀ (env : UYAP.Env) (N : Nat) (init : UYAP.ProgressState),
      (∀ p, UYAP.Event.fetchDoc p ("") ∉ (UYAP.runMain env N init).2) ∧
      (∀ p row, UYAP.Event.appendRow p row ∈ (UYAP.runMain env N init).2 →
        row.id ≠ "") ∧
      ("" ∉ init.ids_downloaded →
        "" ∉ (UYAP.runMain env N init).1.ids_downloaded) ∧
      (∀ n rs, n ∈ List.range' 1 N → n ∉ init.pages_done →
        env.post_aramadetaylist n = .ok rs →
        UYAP.Event.markPageDone n ∈ (UYAP.runMain env N init).2) :=
  fun env N init =>
    ⟨fun p => UYAP.runPages_no_empty_fetch env (List.range' 1 N) init p,
     fun p row h => UYAP.runPages_appendRow env (List.range' 1 N) init p row h,
     fun h => UYAP.runPages_ids_empty env (List.range' 1 N) init h,
     fun n rs hmem hnot heq =>
       UYAP.runPages_mark_mem env (List.range' 1 N) init n rs hmem hnot heq⟩

/-- C10 witness: on a page containing a record without id next to a normal
record, no fetch with an empty id happens, the written row has the nonempty
id, the empty id is not in the final progress state, and the page is still
marked done. -/
theorem C10_witness :
    (UYAP.Event.fetchDoc 1 ("") ∉
      (UYAP.runMain UYAP.envC10 1 UYAP.emptyProgress).2) ∧
    ("" ∉ (UYAP.runMain UYAP.envC10 1 UYAP.emptyProgress).1.ids_downloaded) ∧
    UYAP.Event.markPageDone 1 ∈
      (UYAP.runMain UYAP.envC10 1 UYAP.emptyProgress).2 :=
  ⟨(C10_empty_id_dropped UYAP.envC10 1 UYAP.emptyProgress).1 1,
   (C10_empty_id_dropped UYAP.envC10 1 UYAP.emptyProgress).2.2.1 (by decide),
   (C10_empty_id_dropped UYAP.envC10 1 UYAP.emptyProgress).2.2.2 1
     [UYAP.recNoId, UYAP.recA] (by decide) (by decide) rfl⟩
